import Mathlib

/-!
Verification of the starfuse package reader against its specification.

The development shallowly embeds the Python sources:
  starfuse/fs/mapped_file.py   (paged mapping, regions)
  starfuse/fs/vfs.py           (virtual filesystem trie)
  starfuse/pak/btreedb4.py     (BTreeDB4 engine)
  starfuse/pak/pakfile.py      (package front end)
Byte strings are `List Nat` (each element a byte value), Python integers are
`Int` with explicit two's-complement decoding where the code unpacks signed
fields, and fallible operations return `Option` or `Except`.  Python
exceptions are error values; loops are embedded with a fuel argument that is
provably sufficient for every execution the theorems speak about.
-/

/-- Clamp one bound of a Python slice to an index in `[0, len]`, following
`slice.indices`: a negative bound counts from the end of the sequence. -/
def pySliceIdx (len : Nat) (i : Int) : Nat :=
  if i < 0 then ((len : Int) + i).toNat else min i.toNat len

/-- Python slicing `s[a:b]` (step 1) on a byte string. -/
def pySlice (s : List Nat) (a b : Int) : List Nat :=
  (s.take (pySliceIdx s.length b)).drop (pySliceIdx s.length a)

/-- Python 2 `needle in haystack` on byte strings: a contiguous-substring
test.  `startsWithSeg h n` checks that `n` is an initial run of `h`. -/
def startsWithSeg : List Nat → List Nat → Bool
  | _, [] => true
  | [], _ :: _ => false
  | a :: h, b :: n => a = b && startsWithSeg h n

/-- Python 2 substring membership `needle in haystack`. -/
def containsSeg : List Nat → List Nat → Bool
  | [], needle => needle.isEmpty
  | a :: h, needle => startsWithSeg (a :: h) needle || containsSeg h needle

/-- Sequential `read(n)` over an in-memory byte stream: exactly `n` bytes or
failure.  This models a reader that either satisfies the request or raises. -/
def sread (n : Nat) (s : List Nat) : Option (List Nat × List Nat) :=
  if s.length < n then none else some (s.take n, s.drop n)

/-- Big-endian unsigned interpretation of a 4-byte string (struct format
string directive I, helper for the signed decoder). -/
def beU32 (b : List Nat) : Nat :=
  match b with
  | [b0, b1, b2, b3] => ((b0 * 256 + b1) * 256 + b2) * 256 + b3
  | _ => 0

/-- Big-endian signed 32-bit decoding, as Python struct.unpack with a
big-endian signed directive produces: two's complement. -/
def beI32 (b : List Nat) : Int :=
  let n := beU32 b
  if n < 2 ^ 31 then (n : Int) else (n : Int) - 2 ^ 32

/-! ## Paged mapping (starfuse/fs/mapped_file.py)

A `MappedFile` maps a file of bytes `f` in pages of `P` bytes.  Page `i`
holds bytes `[i*P, min((i+1)*P, F))`; the model below assumes the
configuration in which exactly the pages covering the file are present in
the page dictionary (the state after `region` calls covering the file), so a
lookup of any further page is a `KeyError`, modelled as `none`. -/

/-- The byte content of page `i` when it is present in `self._pages`. -/
def pageAt (f : List Nat) (P : Nat) (i : Nat) : Option (List Nat) :=
  if i * P < f.length then some ((f.drop (i * P)).take P) else none

/-- The page-concatenation loop of `MappedFile.read`.  Each pass appends the
slice `pages[cur_page][abs_offset : abs_offset + readable]` for
`readable = min(P - abs_offset, length)` (a Python slice clamps at the
page's true end), decreases the remaining length by `readable` and moves to
the next page.  A missing page is a `KeyError`, hence `none`.  The first
argument is fuel bounding the iteration count; every call made by
`mfReadCore` supplies enough fuel for the loop to run to completion, since
each pass with a positive remaining length consumes at least one byte. -/
def readLoop (f : List Nat) (P : Nat) : Nat → Nat → Nat → Nat → Option (List Nat)
  | 0, _, _, len => if len = 0 then some [] else none
  | fuel + 1, curPage, absOff, len =>
    if len = 0 then some []
    else
      match pageAt f P curPage with
      | none => none
      | some pg =>
        let readable := min (P - absOff) len
        (readLoop f P fuel (curPage + 1) 0 (len - readable)).map
          (fun rest => (pg.drop absOff).take readable ++ rest)

/-- `Region._sanitize_segment` (inherited unchanged by `MappedFile`): an
offset at or beyond the region size raises, a negative offset means the
cursor, a zero length raises, and a negative length is replaced by
`size - offset`.  A positive length passes through unchanged. -/
def sanitizeSegment (size cursor : Nat) (offset length : Int) :
    Option (Nat × Int) :=
  if (size : Int) ≤ offset then none
  else
    let o : Nat := if offset < 0 then cursor else offset.toNat
    if length = 0 then none
    else some (o, if length < 0 then (size : Int) - (o : Int) else length)

/-- Body of `MappedFile.read` without the cursor update: sanitize against the
file length, clamp the length to `min(length, len(self))` (note: to the file
length, not to the remaining bytes), then run the page loop starting at page
`offset / P`, intra-page offset `offset % P`. -/
def mfReadCore (f : List Nat) (P : Nat) (cursor : Nat) (length offset : Int) :
    Option (List Nat) :=
  match sanitizeSegment f.length cursor offset length with
  | none => none
  | some (o, l) =>
    let l2 := min l (f.length : Int)
    if l2 ≤ 0 then some []
    else readLoop f P (l2.toNat + 1) (o / P) (o % P) l2.toNat

/-- `MappedFile.read` with its cursor update: the root cursor advances by the
number of bytes returned exactly when `advance` is true. -/
def mfRead (f : List Nat) (P : Nat) (cursor : Nat) (length offset : Int)
    (advance : Bool) : Option (List Nat × Nat) :=
  (mfReadCore f P cursor length offset).map
    (fun bs => (bs, if advance then cursor + bs.length else cursor))

/-- `Region.read`: sanitize the request against the region's own size,
translate by `base_offset`, and forward to the owning mapping's `read`.
Cursors are not used by the claims about regions, so the region cursor is a
parameter and the root read is taken at an explicit offset. -/
def regionRead (f : List Nat) (P : Nat) (base size cursor : Nat)
    (length offset : Int) : Option (List Nat) :=
  match sanitizeSegment size cursor offset length with
  | none => none
  | some (o, l) => mfReadCore f P 0 l ((base + o : Nat) : Int)

/-- Write-path error outcomes of the mapped-file layer. -/
inductive WErr where
  | readOnlyError
  | attrError
  | assertError
deriving DecidableEq

/-- The read-only flag state established by `MappedFile.__init__`: the line
`read_only = True` at the top of the constructor overwrites the caller's
argument unconditionally, so the flag stored on the mapping is always
true. -/
def mappedFileReadOnlyFlag (readOnlyArg : Bool) : Bool :=
  let _readOnly := readOnlyArg
  let readOnly := true
  readOnly

/-- `MappedFile.write`: raises the read-only error whenever the mapping is
flagged read-only; the remaining body is an always-failing assertion. -/
def mfWrite (readOnlyFlag : Bool) : Except WErr Nat :=
  if readOnlyFlag then .error .readOnlyError else .error .assertError

/-- `Region.write`: after defaulting the length, the body invokes the
attribute `_sanitaize_segment`, a misspelling of `_sanitize_segment`.  No
such attribute exists on any object of the module, so the call raises
`AttributeError` before any other check runs. -/
def regionWrite (value : List Nat) (length _offset : Int) : Except WErr Nat :=
  let _ := if length < 0 then (value.length : Int) else length
  .error .attrError


/-! ## Virtual filesystem (starfuse/fs/vfs.py, starfuse/pak/pakfile.py)

Directory nodes are Python dicts from name components to child nodes;
file leaves hold the opaque lookup value.  In the Python 2 source both
names and lookup values are byte strings, so the dynamic behaviour of
applying dict operations to a leaf value is the behaviour of those
operations on `str`: membership is a substring test, indexing by a string
and item assignment raise `TypeError`. -/

/-- A VFS node: a directory (dict, as an insertion-ordered association
list) or a file entry holding its lookup value. -/
inductive VNode where
  | dir (entries : List (List Nat × VNode))
  | file (lookup : List Nat)

/-- Errors of VFS construction and resolution.  `typeError` stands for the
Python `TypeError` raised by a string operation, `engineError` for a failed
underlying database read. -/
inductive VErr where
  | fileNotFound
  | notADir
  | isADir
  | typeError
  | engineError
deriving DecidableEq

/-- Dict lookup on a directory's entry list. -/
def assocFind (es : List (List Nat × VNode)) (k : List Nat) : Option VNode :=
  match es with
  | [] => none
  | (k2, v) :: rest => if k2 = k then some v else assocFind rest k

/-- Dict item assignment: replace the value under an existing key, else
append the new binding (Python dicts preserve insertion order). -/
def assocSet (es : List (List Nat × VNode)) (k : List Nat) (v : VNode) :
    List (List Nat × VNode) :=
  match es with
  | [] => [(k, v)]
  | (k2, v2) :: rest =>
    if k2 = k then (k2, v) :: rest else (k2, v2) :: assocSet rest k v

/-- `path.strip(os.sep)`: remove leading and trailing separator bytes. -/
def stripSep (p : List Nat) : List Nat :=
  ((p.dropWhile (fun b => b = 47)).reverse.dropWhile (fun b => b = 47)).reverse

/-- `path.split(os.sep)`: split on the separator byte; like Python's
`str.split` with an explicit separator this never returns an empty list. -/
def splitSep (p : List Nat) : List (List Nat) :=
  p.splitOn 47

/-- The final step of `VFS.add_file` once `_mkdirp` has returned `direc`:
if the last component is already present and maps to a dict, raise
the is-a-dir error; if it maps to a file, return leaving the first entry in
place; otherwise store the lookup value.  When `direc` is itself a file
value (a `str`), the membership test is a substring test and the following
string indexing or item assignment raises `TypeError` either way. -/
def placeFile (node : VNode) (fname lookup : List Nat) : Except VErr VNode :=
  match node with
  | .file v =>
    if containsSeg v fname then .error .typeError else .error .typeError
  | .dir es =>
    match assocFind es fname with
    | some (.dir _) => .error .isADir
    | some (.file _) => .ok (.dir es)
    | none => .ok (.dir (assocSet es fname (.file lookup)))

/-- `VFS._mkdirp` fused with the trailing `add_file` step, as a functional
update.  On each intermediate component: a missing name either raises
the not-found error (`mkdirs` false) or creates a fresh dict; a present name
descends.  When the current node is a file value, `name not in cur` is a
substring test on the value; if the name is not a substring the code
proceeds to `cur[name] = dict()` which raises `TypeError` (or raises
the not-found error when `mkdirs` is false), and if it is a substring the
guard `not isinstance(cur, dict)` finally fires and raises the
not-a-dir error.  Note the guard inspects `cur` — the parent — rather than
`cur[name]`, which is why a file reached by descent is not reported as
not-a-dir on the usual path. -/
def addFileWalk (node : VNode) (names : List (List Nat))
    (fname lookup : List Nat) (mkdirs : Bool) : Except VErr VNode :=
  match names with
  | [] => placeFile node fname lookup
  | n :: rest =>
    match node with
    | .file v =>
      if containsSeg v n then .error .notADir
      else if mkdirs then .error .typeError
      else .error .fileNotFound
    | .dir es =>
      match assocFind es n with
      | some child =>
        (addFileWalk child rest fname lookup mkdirs).map
          (fun c2 => .dir (assocSet es n c2))
      | none =>
        if mkdirs then
          (addFileWalk (.dir []) rest fname lookup mkdirs).map
            (fun c2 => .dir (assocSet es n c2))
        else .error .fileNotFound

/-- `VFS.add_file`: split the path, walk the intermediate components, place
the file at the last one. -/
def addFile (root : VNode) (abspath lookup : List Nat) (mkdirs : Bool) :
    Except VErr VNode :=
  let names := splitSep (stripSep abspath)
  addFileWalk root names.dropLast (names.getLastD []) lookup mkdirs

/-- The construction loop of `Pakfile.__init__`: register every index entry
with `add_file(..., mkdirs=True)`, aborting on the first error. -/
def buildVFS (root : VNode) : List (List Nat × List Nat) → Except VErr VNode
  | [] => .ok root
  | (p, lu) :: rest => (addFile root p lu true).bind (fun r2 => buildVFS r2 rest)

/-- `VFS._mkdirp` with `mkdirs=False` as used by `Pakfile.get_entry`: pure
traversal, never updates. -/
def walkNoCreate (node : VNode) : List (List Nat) → Except VErr VNode
  | [] => .ok node
  | n :: rest =>
    match node with
    | .file v =>
      if containsSeg v n then .error .notADir else .error .fileNotFound
    | .dir es =>
      match assocFind es n with
      | none => .error .fileNotFound
      | some child => walkNoCreate child rest

/-- `Pakfile.get_entry` reduced to the data the callers consume: the entry
node and the is-file flag.  The root path returns the root directory; for
other paths the parent is resolved with `_mkdirp(names[:-1])` and the last
component is looked up in it.  When the parent resolved to a file value, the
membership test is a substring test and a hit leads to string indexing,
which raises `TypeError`. -/
def getEntry (root : VNode) (abspath : List Nat) : Except VErr (VNode × Bool) :=
  if abspath = [47] then .ok (root, false)
  else
    let names := splitSep (stripSep abspath)
    let fname := names.getLastD []
    match walkNoCreate root names.dropLast with
    | .error e => .error e
    | .ok direc =>
      match direc with
      | .file v =>
        if containsSeg v fname then .error .typeError else .error .fileNotFound
      | .dir es =>
        match assocFind es fname with
        | none => .error .fileNotFound
        | some e =>
          .ok (e, match e with | .dir _ => false | .file _ => true)

/-- `Pakfile.get_file_contents(abspath, offset, size)`: resolve the entry,
require a file, read the full value through the database engine (abstracted
as `engine`, the `Package` read of the key `abspath`), and return the Python
slice `value[offset : offset + size]`. -/
def getFileContents (root : VNode) (engine : List Nat → Option (List Nat))
    (abspath : List Nat) (offset size : Int) : Except VErr (List Nat) :=
  match getEntry root abspath with
  | .error e => .error e
  | .ok (_, isfile) =>
    if isfile then
      match engine abspath with
      | none => .error .engineError
      | some value => .ok (pySlice value offset (offset + size))
    else .error .isADir

/-! ## SBON primitives (starfuse/pak/sbon.py)

The module `starfuse/pak/sbon.py` is imported by the engine but is not
among the provided sources, so the primitives the engine uses are modelled
from the specification. -/

/-- Accumulator loop for the varint decoder. -/
def varlenAux (acc : Nat) : List Nat → Option (Nat × List Nat)
  | [] => none
  | b :: rest =>
    if b < 128 then some (acc * 128 + b, rest)
    else varlenAux (acc * 128 + (b - 128)) rest

/-- Modelled from the spec: `sbon.read_varlen_number` decodes an unsigned
integer, 7 bits per byte, big-endian, with the high bit of each byte as the
continuation flag; the terminal byte has the high bit clear (source file
starfuse/pak/sbon.py is absent from the provided sources). -/
def readVarlenNumber (s : List Nat) : Option (Nat × List Nat) :=
  varlenAux 0 s

/-- Modelled from the spec: `sbon.read_bytes` reads a varlen length followed
by that many payload bytes (source file starfuse/pak/sbon.py is absent from
the provided sources). -/
def readBytesSbon (s : List Nat) : Option (List Nat × List Nat) :=
  match readVarlenNumber s with
  | none => none
  | some (n, rest) => sread n rest

/-- One hexadecimal digit as an ASCII byte, as `binascii.hexlify` emits. -/
def hexDigit (n : Nat) : Nat :=
  if n < 10 then 48 + n else 87 + n

/-- `binascii.hexlify`: two lowercase hex characters per byte. -/
def hexlify : List Nat → List Nat
  | [] => []
  | b :: rest => hexDigit (b / 16) :: hexDigit (b % 16) :: hexlify rest

/-! ## BTreeDB4 engine (starfuse/pak/btreedb4.py) -/

/-- Engine-level error outcomes.  `assertFailed` stands for a failed
`assert` (the format checks), `keyNotFound` carries what the raised
`BTreeKeyError` carries after the `keyed` wrapper has processed it. -/
inductive BErr where
  | assertFailed
  | chainBroken
  | invalidSignature
  | keyNotFound (hexKey : List Nat) (origPath : Option (List Nat))
deriving DecidableEq

/-- A parsed index block: level byte, the raw signed `num_keys` field, the
key list and the child list (`left_block` first). -/
structure IndexBlock where
  level : Nat
  numKeys : Int
  keys : List (List Nat)
  values : List Int
deriving DecidableEq, Repr

/-- The loop of `bisect.bisect_right` from the Python standard library:
binary search maintaining `lo`/`hi`, descending right on `a[mid] <= x`.
The first argument is fuel; `bisectRight` supplies `a.length + 1`, which is
provably sufficient since `hi - lo` shrinks every pass.  An out-of-range
`a[mid]` cannot occur on the calls the engine makes (`hi` starts at the list
length); the `none` branch returns `lo` and is unreachable there. -/
def bisectAux [LinearOrder α] (a : List α) (x : α) :
    Nat → Nat → Nat → Nat
  | 0, lo, _ => lo
  | fuel + 1, lo, hi =>
    if lo < hi then
      let mid := (lo + hi) / 2
      match a.get? mid with
      | none => lo
      | some am =>
        if x < am then bisectAux a x fuel lo mid
        else bisectAux a x fuel (mid + 1) hi
    else lo

/-- `bisect.bisect_right(a, x)`. -/
def bisectRight [LinearOrder α] (a : List α) (x : α) : Nat :=
  bisectAux a x (a.length + 1) 0 a.length

/-- `BTreeIndex.block_for_key`: upper-bound bisection over the keys, then
the child at that position; a position beyond the child list would be a
Python `IndexError`, hence `Option`. -/
def blockForKey (b : IndexBlock) (key : List Nat) : Option Int :=
  b.values.get? (bisectRight b.keys key)

/-- The record loop of `BTreeIndex.__init__`: read `num_keys` pairs of
`(key. key_size bytes, child: i32)` from the block region, or fail when the
stream runs out (the underlying read would fail or `struct.unpack` would
reject a short buffer). -/
def parseIndexRecords (keySize : Nat) :
    Nat → List Nat → Option (List (List Nat) × List Int × List Nat)
  | 0, s => some ([], [], s)
  | n + 1, s =>
    match sread keySize s with
    | none => none
    | some (k, s1) =>
      match sread 4 s1 with
      | none => none
      | some (cb, s2) =>
        match parseIndexRecords keySize n s2 with
        | none => none
        | some (ks, vs, r) => some (k :: ks, beI32 cb :: vs, r)

/-- `BTreeIndex.__init__` after the signature: unpack the 9-byte header
(level u8, num_keys i32, left_block i32, big-endian), then read `num_keys`
records.  `range(num_keys)` of a negative count is empty, which the `toNat`
of the signed field reproduces. -/
def parseIndex (keySize : Nat) (s : List Nat) : Option IndexBlock :=
  match sread 9 s with
  | none => none
  | some (hdr, rest) =>
    let level := hdr.headD 0
    let nk := beI32 ((hdr.drop 1).take 4)
    let leftBlock := beI32 (hdr.drop 5)
    match parseIndexRecords keySize nk.toNat rest with
    | none => none
    | some (ks, vs, _) =>
      some { level := level, numKeys := nk, keys := ks, values := leftBlock :: vs }

/-- The kind of block `BTreeDB4.block` constructs. -/
inductive BlockTag where
  | index
  | leaf
  | free
deriving DecidableEq

/-- The signature dispatch of `BTreeDB4.block`: the two leading bytes are
matched against the signature table; on a miss the code tests
`signature is not b..00 00..` — an object-identity comparison between the
freshly created bytes object returned by `region.read(2)` and a literal,
which is true for every signature value — and raises the invalid-signature
error.  The trailing `return None` is therefore unreachable. -/
def blockDispatch (sig : List Nat) : Except BErr (Option BlockTag) :=
  if sig = [73, 73] then .ok (some .index)
  else if sig = [76, 76] then .ok (some .leaf)
  else if sig = [70, 70] then .ok (some .free)
  else
    let pyIsNotNullLiteral := true
    if pyIsNotNullLiteral then .error .invalidSignature
    else .ok none

/-- The same dispatch as the specification words it: a null signature (two
zero bytes) returns no block, any other unknown signature is the
invalid-signature error. -/
def blockDispatchSpec (sig : List Nat) : Except BErr (Option BlockTag) :=
  if sig = [73, 73] then .ok (some .index)
  else if sig = [76, 76] then .ok (some .leaf)
  else if sig = [70, 70] then .ok (some .free)
  else if sig = [0, 0] then .ok none
  else .error .invalidSignature


/-! ## Record lookup on a leaf chain (BTreeDB4.file_contents with keyed)

`LeafReader.read(n)` over a leaf chain either returns exactly `n` bytes or
raises (chain exhausted, revisited or broken).  The scan below therefore
runs over the flattened chain contents `stream`; a request past its end is
the chain failure. -/

/-- The entry loop of `BTreeDB4.file_contents`: for each of the remaining
entries read the key and the value (`sbon.read_bytes`), return the value as
soon as the key matches; when the counter is exhausted raise
`BTreeKeyError(key)` — recorded here before the `keyed` wrapper processes
it, with the raw key and no path. -/
def scanRecords (keySize : Nat) (key : List Nat) :
    Nat → List Nat → Except BErr (List Nat)
  | 0, _ => .error (.keyNotFound key none)
  | n + 1, s =>
    match sread keySize s with
    | none => .error .chainBroken
    | some (curKey, s1) =>
      match readBytesSbon s1 with
      | none => .error .chainBroken
      | some (value, s2) =>
        if curKey = key then .ok value else scanRecords keySize key n s2

/-- Body of `BTreeDB4.file_contents` on the leaf stream: read `num_keys` as
a big-endian i32, assert `num_keys < 1000`, then scan the entries. -/
def fileContentsRaw (keySize : Nat) (key : List Nat) (stream : List Nat) :
    Except BErr (List Nat) :=
  match sread 4 stream with
  | none => .error .chainBroken
  | some (nkb, rest) =>
    let nk := beI32 nkb
    if nk < 1000 then scanRecords keySize key nk.toNat rest
    else .error .assertFailed

/-- `file_contents` under the `keyed` decorator: encode the key unless
`raw_key` is set, assert its length, run the body, and on `BTreeKeyError`
re-raise with the hexadecimal of the encoded key — and the original lookup
argument as well when it was an unencoded path. -/
def fileContentsKeyed (keySize : Nat) (encode : List Nat → List Nat)
    (rawKey : Bool) (arg : List Nat) (stream : List Nat) :
    Except BErr (List Nat) :=
  let key := if rawKey then arg else encode arg
  if key.length = keySize then
    match fileContentsRaw keySize key stream with
    | .error (.keyNotFound k _) =>
      .error (.keyNotFound (hexlify k) (if rawKey then none else some arg))
    | r => r
  else .error .assertFailed

/-- The list of `(key, value)` pairs laid out in a leaf stream: what the
scan loop walks over.  Defined to state the lookup theorem; it performs the
same reads as the scan, collecting instead of comparing. -/
def parseEntries (keySize : Nat) :
    Nat → List Nat → Option (List (List Nat × List Nat))
  | 0, _ => some []
  | n + 1, s =>
    match sread keySize s with
    | none => none
    | some (k, s1) =>
      match readBytesSbon s1 with
      | none => none
      | some (v, s2) =>
        match parseEntries keySize n s2 with
        | none => none
        | some es => some ((k, v) :: es)

/-- First value bound to a key in an entry list. -/
def entriesFind (es : List (List Nat × List Nat)) (key : List Nat) :
    Option (List Nat) :=
  match es with
  | [] => none
  | (k, v) :: rest => if k = key then some v else entriesFind rest key

/-! ## B+-tree descent (BTreeDB4._leaf_for_key)

`self.block(i)` parses the block at index `i`; for the descent the block
store is abstracted as a finite table from block indices to parsed blocks
(`none` where `block` returns no block or fails).  Leaf and free payloads
play no role in the descent and are omitted. -/

/-- A parsed block as the descent loop distinguishes them. -/
inductive PBlock where
  | index (ib : IndexBlock)
  | leaf
  | free
deriving DecidableEq

/-- Lookup in the finite block table. -/
def lookupBlock (store : List (Int × PBlock)) (i : Int) : Option PBlock :=
  match store with
  | [] => none
  | (j, b) :: rest => if j = i then some b else lookupBlock rest i

/-- Well-formedness of one block of the table: an index block has one more
child than keys (as every block parsed by `BTreeIndex.__init__` does), and
every child is present in the table and is a leaf or an index block of
strictly smaller level. -/
def wfBlock (store : List (Int × PBlock)) : PBlock → Bool
  | .index ib =>
    (ib.values.length = ib.keys.length + 1 : Bool) &&
      ib.values.all (fun c =>
        match lookupBlock store c with
        | some (.index cb) => cb.level < ib.level
        | some .leaf => true
        | _ => false)
  | _ => true

/-- Well-formedness of the whole table. -/
def wfStore (store : List (Int × PBlock)) : Bool :=
  store.all (fun e => wfBlock store e.2)

/-- The descent loop of `BTreeDB4._leaf_for_key`, with the trace of index
blocks it traverses: while the current block is an index block, replace it
by the child `block_for_key` selects.  The first argument is fuel; the
descent theorem shows `level + 2` suffices. -/
def descendTrace (store : List (Int × PBlock)) (key : List Nat) :
    Nat → Int → Option (List Int × PBlock)
  | 0, _ => none
  | fuel + 1, i =>
    match lookupBlock store i with
    | some (.index ib) =>
      match blockForKey ib key with
      | none => none
      | some c =>
        match descendTrace store key fuel c with
        | none => none
        | some (tr, fin) => some (i :: tr, fin)
    | some b => some ([], b)
    | none => none

/-! ## Lemmas about the page loop -/

theorem readLoop_len_zero (f : List Nat) (P fuel curPage absOff : Nat) :
    readLoop f P fuel curPage absOff 0 = some [] := by
  cases fuel <;> simp [readLoop]

/-- The page loop returns exactly the requested slice whenever the request
lies inside the file: every page it touches is present and the appended
page slices reassemble the contiguous byte range. -/
theorem readLoop_correct (f : List Nat) (P : Nat) :
    ∀ fuel len curPage absOff,
      0 < P → absOff < P → curPage * P + absOff + len ≤ f.length →
      len ≤ fuel →
      readLoop f P fuel curPage absOff len =
        some ((f.drop (curPage * P + absOff)).take len) := by
  intro fuel
  induction fuel with
  | zero =>
    intro len cp ao _ _ _ hlen
    have : len = 0 := Nat.le_zero.mp hlen
    subst this
    simp [readLoop]
  | succ fu ih =>
    intro len cp ao hP hao hbound hlen
    match len with
    | 0 => simp [readLoop]
    | len1 + 1 =>
      have hpagein : cp * P < f.length := by omega
      have hpage : pageAt f P cp = some ((f.drop (cp * P)).take P) := by
        unfold pageAt
        rw [if_pos hpagein]
      have hchunk : ∀ rd, rd ≤ P - ao →
          ((((f.drop (cp * P)).take P).drop ao).take rd) =
            (f.drop (cp * P + ao)).take rd := by
        intro rd hrd
        rw [List.drop_take, List.drop_drop, List.take_take,
          Nat.min_eq_left hrd]
      rw [readLoop]
      rw [if_neg (by omega : ¬ (len1 + 1 = 0))]
      rw [hpage]
      rcases Nat.le_total (len1 + 1) (P - ao) with hcase | hcase
      · have hrd : min (P - ao) (len1 + 1) = len1 + 1 := Nat.min_eq_right hcase
        simp only [hrd, Nat.sub_self, readLoop_len_zero]
        simp only [Option.map]
        rw [hchunk (len1 + 1) hcase, List.append_nil]
      · have hrd : min (P - ao) (len1 + 1) = P - ao := Nat.min_eq_left hcase
        have hPsub : 1 ≤ P - ao := by omega
        have hmul : (cp + 1) * P = cp * P + P := Nat.succ_mul cp P
        have hrec :
            readLoop f P fu (cp + 1) 0 (len1 + 1 - (P - ao)) =
              some ((f.drop ((cp + 1) * P)).take (len1 + 1 - (P - ao))) := by
          apply ih
          · exact hP
          · exact hP
          · omega
          · omega
        simp only [hrd, hrec, Option.map]
        congr 1
        rw [hchunk (P - ao) (Nat.le_refl _)]
        have hsplit : len1 + 1 = (P - ao) + (len1 + 1 - (P - ao)) := by omega
        conv_rhs => rw [hsplit]
        rw [List.take_add, List.drop_drop]
        have hpos : cp * P + ao + (P - ao) = (cp + 1) * P := by omega
        rw [hpos]

/-- The root read body returns exactly the requested in-file byte range. -/
theorem mfReadCore_exact (f : List Nat) (P cursor o n : Nat)
    (hP : 0 < P) (hn : 1 ≤ n) (hbound : o + n ≤ f.length) :
    mfReadCore f P cursor (n : Int) (o : Int) =
      some ((f.drop o).take n) := by
  have hoF : o < f.length := by omega
  have h1 : ¬ ((f.length : Int) ≤ (o : Int)) := by exact_mod_cast Nat.not_le.mpr hoF
  have h2 : ¬ ((o : Int) < 0) := Int.not_lt.mpr (Int.natCast_nonneg o)
  have h3 : ¬ ((n : Int) = 0) := by exact_mod_cast Nat.pos_iff_ne_zero.mp hn
  have h4 : ¬ ((n : Int) < 0) := Int.not_lt.mpr (Int.natCast_nonneg n)
  have hsan :
      sanitizeSegment f.length cursor (o : Int) (n : Int) =
        some (o, (n : Int)) := by
    unfold sanitizeSegment
    simp [h1, h2, h3, h4]
  unfold mfReadCore
  rw [hsan]
  have hl2 : min (n : Int) (f.length : Int) = (n : Int) := by
    apply min_eq_left
    exact_mod_cast by omega
  simp only [hl2]
  rw [if_neg (by exact_mod_cast Nat.not_le.mpr hn)]
  have htn : ((n : Int)).toNat = n := Int.toNat_natCast n
  rw [htn]
  have hdm : o / P * P + o % P = o := by
    rw [Nat.mul_comm]
    exact Nat.div_add_mod o P
  have hloop := readLoop_correct f P (n + 1) n (o / P) (o % P) hP
    (Nat.mod_lt o hP) (by omega) (Nat.le_succ n)
  rw [hloop, hdm]

/-- C1: the code bug evaluated.  For the file `/a` whose full value is
`hello` (bytes 104 101 108 108 111), `get_file_contents("/a", 0, -1)`
returns `hello`  without its last byte, because `value[0 : 0 + (-1)]` stops
one byte short of the end; the claim (and the spec) require the whole value
for a negative length. -/
theorem C1_get_file_contents_negative_length_bug :
    getFileContents (.dir [([97], .file [0])])
        (fun p => if p = [47, 97] then some [104, 101, 108, 108, 111] else none)
        [47, 97] 0 (-1) = .ok [104, 101, 108, 108] ∧
      [104, 101, 108, 108] ≠ [104, 101, 108, 108, 111] := by
  exact ⟨rfl, by decide⟩

/-- C2: the code bug evaluated.  Building the VFS from an index containing
`/a` (a file, first) and then `/a/b` fails with a Python `TypeError` (item
assignment on the file's string value), not with the is-a-dir or not-a-dir
error: the guard in `_mkdirp` tests `isinstance(cur, dict)` on the parent
instead of on `cur[name]`, so descending into a file is not caught. -/
theorem C2_vfs_conflict_raises_type_error :
    buildVFS (.dir []) [([47, 97], [0]), ([47, 97, 47, 98], [1])] =
        .error .typeError ∧
      VErr.typeError ≠ VErr.isADir ∧ VErr.typeError ≠ VErr.notADir := by
  exact ⟨rfl, by decide, by decide⟩

/-- C5: the code bug evaluated.  A block whose signature is two zero bytes
makes `BTreeDB4.block` raise the invalid-signature error instead of
returning no block: the test `signature is not b..00 00..` compares object
identity, which is true for the freshly read signature object, so the null
branch returning `None` is unreachable.  The dispatch as specified returns
no block on the same input. -/
theorem C5_null_signature_raises :
    blockDispatch [0, 0] = .error .invalidSignature ∧
      blockDispatchSpec [0, 0] = .ok none := by
  exact ⟨rfl, rfl⟩

/-- Sanitizing a request with a valid non-negative offset and a non-zero
length resolves the offset and substitutes `size - offset` for a negative
length, leaving a positive length unchanged. -/
theorem sanitizeSegment_pos (size cursor o : Nat) (n : Int)
    (ho : o < size) (hn : n ≠ 0) :
    sanitizeSegment size cursor (o : Int) n =
      some (o, if n < 0 then (size : Int) - (o : Int) else n) := by
  unfold sanitizeSegment
  have h1 : ¬ ((size : Int) ≤ (o : Int)) := by exact_mod_cast Nat.not_le.mpr ho
  have h2 : ¬ ((o : Int) < 0) := Int.not_lt.mpr (Int.natCast_nonneg o)
  simp [h1, h2, hn]

/-- C3 (amended): a region read validates `0 <= o < size` and translates to
root coordinates, but only a NEGATIVE requested length is replaced by
`size - o`; that default request stays inside the region's window, while a
positive length is forwarded to the root read unclamped, so it may return
bytes beyond the window (see the counterexample). -/
theorem C3_region_read_behaviour (f : List Nat) (P base size cursor o : Nat)
    (hP : 0 < P) (ho : o < size) (hwin : base + size ≤ f.length) :
    regionRead f P base size cursor (-1) (o : Int) =
        some ((f.drop (base + o)).take (size - o)) ∧
      ∀ n : Int, 0 < n →
        regionRead f P base size cursor n (o : Int) =
          mfReadCore f P 0 n ((base + o : Nat) : Int) := by
  constructor
  · have hs := sanitizeSegment_pos size cursor o (-1) ho (by decide)
    unfold regionRead
    rw [hs]
    simp only [if_pos (by decide : (-1 : Int) < 0)]
    have hcast : (size : Int) - (o : Int) = ((size - o : Nat) : Int) := by omega
    rw [hcast]
    exact mfReadCore_exact f P 0 (base + o) (size - o) hP (by omega) (by omega)
  · intro n hn
    have hs := sanitizeSegment_pos size cursor o n ho (by omega)
    unfold regionRead
    rw [hs]
    simp [Int.not_lt.mpr (le_of_lt hn)]

/-- C3 witness: a concrete region window of 2 bytes at base 1 over a 4-byte
file with one page. -/
theorem C3_region_read_behaviour_witness :
    0 < 4 ∧ (0 : Nat) < 2 ∧ 1 + 2 ≤ 4 ∧
      (regionRead [1, 2, 3, 4] 4 1 2 0 (-1) ((0 : Nat) : Int) =
          some [2, 3] ∧
        ∀ n : Int, 0 < n →
          regionRead [1, 2, 3, 4] 4 1 2 0 n ((0 : Nat) : Int) =
            mfReadCore [1, 2, 3, 4] 4 0 n ((1 + 0 : Nat) : Int)) := by
  refine ⟨by decide, by decide, by decide, ?_⟩
  exact C3_region_read_behaviour [1, 2, 3, 4] 4 1 2 0 0
    (by decide) (by decide) (by decide)

/-- C3 counterexample: a read of 4 bytes at offset 0 of a region of size 2
returns all 4 bytes of the underlying file — more than the region's window
holds — instead of the claimed truncation to `size - o = 2` bytes. -/
theorem C3_region_read_escapes_window :
    regionRead [1, 2, 3, 4] 4 0 2 0 4 0 = some [1, 2, 3, 4] ∧
      ([1, 2, 3, 4] : List Nat) ≠ List.take (2 - 0) [1, 2, 3, 4] := by
  exact ⟨rfl, by decide⟩

/-- C4 (amended): for a request of at least one byte lying inside the file
(`offset + length <= F`), the root read returns exactly the requested bytes
— `min(length, F - offset) = length` of them — and the cursor advances by
that count exactly when `advance` is set.  A zero length is rejected, and a
request extending past the end of the file is only served when it stays
within the last mapped page (see the counterexample). -/
theorem C4_root_read_in_file (f : List Nat) (P cursor o n : Nat)
    (advance : Bool) (hP : 0 < P) (hn : 1 ≤ n) (hbound : o + n ≤ f.length) :
    mfRead f P cursor (n : Int) (o : Int) advance =
        some ((f.drop o).take n, if advance then cursor + n else cursor) ∧
      ((f.drop o).take n).length = min n (f.length - o) := by
  have hcore := mfReadCore_exact f P cursor o n hP hn hbound
  have hlen : ((f.drop o).take n).length = n := by
    rw [List.length_take, List.length_drop]
    omega
  constructor
  · unfold mfRead
    rw [hcore]
    simp only [Option.map, hlen]
  · rw [hlen]
    omega

/-- C4 witness: a 6-byte file mapped in pages of 4, reading 2 bytes at
offset 3 with `advance` set. -/
theorem C4_root_read_in_file_witness :
    0 < 4 ∧ 1 ≤ 2 ∧ 3 + 2 ≤ 6 ∧
      (mfRead [9, 8, 7, 6, 5, 4] 4 10 ((2 : Nat) : Int) ((3 : Nat) : Int)
            true =
          some ([6, 5], if true then 10 + 2 else 10) ∧
        (([9, 8, 7, 6, 5, 4] : List Nat).drop 3 |>.take 2).length =
          min 2 (([9, 8, 7, 6, 5, 4] : List Nat).length - 3)) := by
  refine ⟨by decide, by decide, by decide, ?_⟩
  exact C4_root_read_in_file [9, 8, 7, 6, 5, 4] 4 10 3 2 true
    (by decide) (by decide) (by decide)

/-- C4 counterexample: a request overshooting the end of the file across a
page boundary.  The claim demands `min(4, 6 - 5) = 1` byte; the loop
instead clamps the length to the file length, walks past the last mapped
page and fails with a `KeyError` (returns nothing). -/
theorem C4_root_read_overshoot_fails :
    mfRead [1, 2, 3, 4, 5, 6] 4 0 4 5 true = none ∧
      min 4 ([1, 2, 3, 4, 5, 6].length - 5) = 1 := by
  exact ⟨rfl, rfl⟩

/-- The scan loop is a first-match lookup over the entries laid out in the
stream: when the stream parses as `n` entries, scanning returns the value
of the first entry whose key matches, and the raw key-not-found error when
none does. -/
theorem scanRecords_eq_find (keySize : Nat) (key : List Nat) :
    ∀ n s es, parseEntries keySize n s = some es →
      scanRecords keySize key n s =
        (match entriesFind es key with
         | some v => .ok v
         | none => .error (.keyNotFound key none)) := by
  intro n
  induction n with
  | zero =>
    intro s es h
    simp only [parseEntries] at h
    injection h with h
    subst h
    simp [scanRecords, entriesFind]
  | succ m ih =>
    intro s es h
    unfold parseEntries at h
    unfold scanRecords
    cases hk : sread keySize s with
    | none => rw [hk] at h; exact absurd h (by simp)
    | some kp =>
      obtain ⟨k, s1⟩ := kp
      rw [hk] at h
      dsimp only at h ⊢
      cases hv : readBytesSbon s1 with
      | none => rw [hv] at h; exact absurd h (by simp)
      | some vp =>
        obtain ⟨v, s2⟩ := vp
        rw [hv] at h
        dsimp only at h ⊢
        cases hp : parseEntries keySize m s2 with
        | none => rw [hp] at h; exact absurd h (by simp)
        | some es2 =>
          rw [hp] at h
          injection h with h
          subst h
          by_cases hkey : k = key
          · subst hkey
            simp [entriesFind]
          · simp [entriesFind, hkey, ih s2 es2 hp]

/-- C6: the record lookup reads `num_keys` as a big-endian i32 and fails
the format assertion when it is 1000 or more; otherwise it scans the
entries laid out in the leaf stream and returns the first value whose key
equals the (encoded) search key, and when the scan exhausts every entry it
fails with key-not-found carrying the hexadecimal of the encoded key
together with the original path of this unencoded lookup. -/
theorem C6_record_lookup (keySize : Nat) (encode : List Nat → List Nat)
    (path stream nkb rest : List Nat) (es : List (List Nat × List Nat))
    (hlen : (encode path).length = keySize)
    (h4 : sread 4 stream = some (nkb, rest)) :
    (1000 ≤ beI32 nkb →
      fileContentsKeyed keySize encode false path stream =
        .error .assertFailed) ∧
      (beI32 nkb < 1000 →
        parseEntries keySize (beI32 nkb).toNat rest = some es →
        fileContentsKeyed keySize encode false path stream =
          (match entriesFind es (encode path) with
           | some v => .ok v
           | none =>
             .error (.keyNotFound (hexlify (encode path)) (some path)))) := by
  constructor
  · intro hge
    unfold fileContentsKeyed fileContentsRaw
    rw [h4]
    simp [hlen, Int.not_lt.mpr hge]
  · intro hlt hp
    have hscan :=
      scanRecords_eq_find keySize (encode path) (beI32 nkb).toNat rest es hp
    unfold fileContentsKeyed fileContentsRaw
    rw [h4]
    simp only [Bool.false_eq_true, if_false, hscan]
    rw [if_pos hlen, if_pos hlt]
    cases hfind : entriesFind es (encode path) <;> simp [hfind]

/-- C6 witness: a two-entry leaf stream with key size 1; the search key 7
matches the second entry, whose value is the two bytes 9 9. -/
theorem C6_record_lookup_witness :
    ((fun (k : List Nat) => k) [7]).length = 1 ∧
      sread 4 [0, 0, 0, 2, 5, 1, 4, 7, 2, 9, 9] =
        some ([0, 0, 0, 2], [5, 1, 4, 7, 2, 9, 9]) ∧
      beI32 [0, 0, 0, 2] < 1000 ∧
      parseEntries 1 (beI32 [0, 0, 0, 2]).toNat [5, 1, 4, 7, 2, 9, 9] =
        some [([5], [4]), ([7], [9, 9])] ∧
      fileContentsKeyed 1 (fun k => k) false [7]
          [0, 0, 0, 2, 5, 1, 4, 7, 2, 9, 9] = .ok [9, 9] := by
  refine ⟨rfl, by decide, by decide, by decide, ?_⟩
  exact (C6_record_lookup 1 (fun k => k) [7] [0, 0, 0, 2, 5, 1, 4, 7, 2, 9, 9]
      [0, 0, 0, 2] [5, 1, 4, 7, 2, 9, 9] [([5], [4]), ([7], [9, 9])]
      rfl (by decide)).2 (by decide) (by decide)

/-! ## Lemmas about upper-bound bisection -/

theorem bisectAux_bounds [LinearOrder α] (a : List α) (x : α) :
    ∀ fuel lo hi, lo ≤ hi →
      lo ≤ bisectAux a x fuel lo hi ∧ bisectAux a x fuel lo hi ≤ hi := by
  intro fuel
  induction fuel with
  | zero => intro lo hi h; exact ⟨Nat.le_refl lo, h⟩
  | succ fu ih =>
    intro lo hi h
    unfold bisectAux
    by_cases hlt : lo < hi
    · rw [if_pos hlt]
      dsimp only
      cases hget : a.get? ((lo + hi) / 2) with
      | none => exact ⟨Nat.le_refl lo, h⟩
      | some am =>
        dsimp only
        by_cases hx : x < am
        · rw [if_pos hx]
          have hb := ih lo ((lo + hi) / 2) (by omega)
          exact ⟨hb.1, by omega⟩
        · rw [if_neg hx]
          have hb := ih ((lo + hi) / 2 + 1) hi (by omega)
          exact ⟨by omega, hb.2⟩
    · rw [if_neg hlt]
      exact ⟨Nat.le_refl lo, h⟩

/-- Monotonicity of a sorted list along positions, phrased on `get?`. -/
theorem sorted_le_of_get? [LinearOrder α] {a : List α}
    (hs : a.Sorted (· ≤ ·)) {i j : Nat} (hij : i ≤ j) {ai aj : α}
    (hi : a.get? i = some ai) (hj : a.get? j = some aj) : ai ≤ aj := by
  have hjlen : j < a.length := by
    by_contra hcon
    rw [List.get?_eq_none.mpr (Nat.le_of_not_lt hcon)] at hj
    exact absurd hj (by simp)
  have hilen : i < a.length := by omega
  rw [List.get?_eq_get hilen] at hi
  rw [List.get?_eq_get hjlen] at hj
  injection hi with hi
  injection hj with hj
  subst hi
  subst hj
  rcases Nat.eq_or_lt_of_le hij with heq | hltij
  · simp [heq]
  · exact List.pairwise_iff_get.mp hs ⟨i, hilen⟩ ⟨j, hjlen⟩ hltij

/-- The bisection loop preserves and establishes the boundary invariant:
everything strictly below the returned position is at most `x`, everything
at or above it is greater than `x`. -/
theorem bisectAux_spec [LinearOrder α] (a : List α) (x : α)
    (hs : a.Sorted (· ≤ ·)) :
    ∀ fuel lo hi, hi ≤ a.length → hi - lo ≤ fuel → lo ≤ hi →
      (∀ i, i < lo → ∀ ai, a.get? i = some ai → ai ≤ x) →
      (∀ i, hi ≤ i → ∀ ai, a.get? i = some ai → x < ai) →
      (∀ i, i < bisectAux a x fuel lo hi → ∀ ai, a.get? i = some ai → ai ≤ x) ∧
        (∀ i, bisectAux a x fuel lo hi ≤ i → ∀ ai, a.get? i = some ai →
          x < ai) := by
  intro fuel
  induction fuel with
  | zero =>
    intro lo hi _ hfuel hlohi hlow hhigh
    have : lo = hi := by omega
    subst this
    exact ⟨hlow, hhigh⟩
  | succ fu ih =>
    intro lo hi hhilen hfuel hlohi hlow hhigh
    unfold bisectAux
    by_cases hlt : lo < hi
    · rw [if_pos hlt]
      dsimp only
      have hmidlen : (lo + hi) / 2 < a.length := by omega
      cases hget : a.get? ((lo + hi) / 2) with
      | none =>
        rw [List.get?_eq_get hmidlen] at hget
        exact absurd hget (by simp)
      | some am =>
        dsimp only
        by_cases hx : x < am
        · rw [if_pos hx]
          apply ih lo ((lo + hi) / 2) (by omega) (by omega) (by omega) hlow
          intro i hi2 ai hai
          exact lt_of_lt_of_le hx (sorted_le_of_get? hs hi2 hget hai)
        · rw [if_neg hx]
          apply ih ((lo + hi) / 2 + 1) hi hhilen (by omega) (by omega)
          · intro i hi2 ai hai
            exact le_trans (sorted_le_of_get? hs (by omega) hai hget)
              (le_of_not_lt hx)
          · exact hhigh
    · rw [if_neg hlt]
      have : lo = hi := by omega
      subst this
      exact ⟨hlow, hhigh⟩

/-- On a sorted list, `bisect_right` computes the number of elements that
are at most `x`. -/
theorem bisectRight_eq_countP [LinearOrder α] (a : List α) (x : α)
    (hs : a.Sorted (· ≤ ·)) :
    bisectRight a x = a.countP (fun y => decide (y ≤ x)) := by
  have hspec := bisectAux_spec a x hs (a.length + 1) 0 a.length
    (Nat.le_refl _) (by omega) (Nat.zero_le _)
    (by intro i hi2 ai _; omega)
    (by
      intro i hi2 ai hai
      rw [List.get?_eq_none.mpr hi2] at hai
      exact absurd hai (by simp))
  have hbounds := bisectAux_bounds a x (a.length + 1) 0 a.length (Nat.zero_le _)
  set r := bisectAux a x (a.length + 1) 0 a.length with hr
  have hrlen : r ≤ a.length := hbounds.2
  have hcount :
      a.countP (fun y => decide (y ≤ x)) =
        (a.take r).countP (fun y => decide (y ≤ x)) +
          (a.drop r).countP (fun y => decide (y ≤ x)) := by
    conv_lhs => rw [← List.take_append_drop r a]
    exact List.countP_append _ _ _
  have htake : (a.take r).countP (fun y => decide (y ≤ x)) = r := by
    have hall : ∀ b ∈ a.take r, decide (b ≤ x) = true := by
      intro b hb
      obtain ⟨k, hk⟩ := List.mem_iff_get?.mp hb
      have hklt : k < r := by
        by_contra hcon
        rw [List.get?_eq_none.mpr (by simp [List.length_take]; omega)] at hk
        exact absurd hk (by simp)
      rw [List.get?_take hklt] at hk
      exact decide_eq_true (hspec.1 k hklt b hk)
    rw [List.countP_eq_length.mpr hall, List.length_take]
    omega
  have hdrop : (a.drop r).countP (fun y => decide (y ≤ x)) = 0 := by
    apply List.countP_eq_zero.mpr
    intro b hb
    obtain ⟨k, hk⟩ := List.mem_iff_get?.mp hb
    rw [List.get?_drop] at hk
    have := hspec.2 (r + k) (by omega) b hk
    simp [not_le.mpr this]
  unfold bisectRight
  rw [← hr, hcount, htake, hdrop]
  omega

/-- C7: on an index block whose keys are in ascending order, the descent
child is the entry of the child list at the upper-bound bisection position,
which equals the number of keys lexicographically at most the search key. -/
theorem C7_child_selection (b : IndexBlock) (key : List Nat)
    (hs : b.keys.Sorted (· ≤ ·)) :
    blockForKey b key =
      b.values.get? (b.keys.countP (fun k => decide (k ≤ key))) := by
  unfold blockForKey
  rw [bisectRight_eq_countP b.keys key hs]

/-- C7 witness: a block with keys 1 and 3 (as one-byte strings) and three
children; key 2 selects the middle child. -/
theorem C7_child_selection_witness :
    (([[1], [3]] : List (List Nat)).Sorted (· ≤ ·)) ∧
      blockForKey (IndexBlock.mk 1 2 [[1], [3]] [10, 20, 30]) [2] =
        ([10, 20, 30] : List Int).get?
          ((([[1], [3]] : List (List Nat)).countP
            (fun k => decide (k ≤ [2])))) := by
  refine ⟨by decide, ?_⟩
  exact C7_child_selection (IndexBlock.mk 1 2 [[1], [3]] [10, 20, 30])
    [2] (by decide)

/-- The bisection position never exceeds the list length. -/
theorem bisectRight_le_length [LinearOrder α] (a : List α) (x : α) :
    bisectRight a x ≤ a.length :=
  (bisectAux_bounds a x (a.length + 1) 0 a.length (Nat.zero_le _)).2

/-- The record loop of the index-block parser produces exactly as many keys
and children as it was asked to read. -/
theorem parseIndexRecords_lengths (keySize : Nat) :
    ∀ n s ks vs r, parseIndexRecords keySize n s = some (ks, vs, r) →
      ks.length = n ∧ vs.length = n := by
  intro n
  induction n with
  | zero =>
    intro s ks vs r h
    simp only [parseIndexRecords, Option.some.injEq, Prod.mk.injEq] at h
    obtain ⟨rfl, rfl, rfl⟩ := h
    exact ⟨rfl, rfl⟩
  | succ m ih =>
    intro s ks vs r h
    unfold parseIndexRecords at h
    cases hk : sread keySize s with
    | none => rw [hk] at h; exact absurd h (by simp)
    | some kp =>
      obtain ⟨k, s1⟩ := kp
      rw [hk] at h
      dsimp only at h
      cases hc : sread 4 s1 with
      | none => rw [hc] at h; exact absurd h (by simp)
      | some cp =>
        obtain ⟨cb, s2⟩ := cp
        rw [hc] at h
        dsimp only at h
        cases hp : parseIndexRecords keySize m s2 with
        | none => rw [hp] at h; exact absurd h (by simp)
        | some es =>
          obtain ⟨ks2, vs2, r2⟩ := es
          rw [hp] at h
          simp only [Option.some.injEq, Prod.mk.injEq] at h
          obtain ⟨rfl, rfl, rfl⟩ := h
          have := ih s2 ks2 vs2 r2 hp
          simp [this.1, this.2]

/-- C10 (amended): a successfully parsed index block has exactly one more
child than it has keys — the key count being the non-negative part of the
signed `num_keys` field, since a negative count reads no records — so for
every search key the bisection position is at most the key count and the
child selection is always in range. -/
theorem C10_parsed_index_child_in_range (keySize : Nat) (s : List Nat)
    (ib : IndexBlock) (hp : parseIndex keySize s = some ib) :
    ib.values.length = ib.keys.length + 1 ∧
      ib.keys.length = ib.numKeys.toNat ∧
      ∀ key, bisectRight ib.keys key ≤ ib.keys.length ∧
        (blockForKey ib key).isSome := by
  unfold parseIndex at hp
  cases hh : sread 9 s with
  | none => rw [hh] at hp; exact absurd hp (by simp)
  | some hdp =>
    obtain ⟨hdr, rest⟩ := hdp
    rw [hh] at hp
    dsimp only at hp
    cases hr : parseIndexRecords keySize (beI32 ((hdr.drop 1).take 4)).toNat
        rest with
    | none => rw [hr] at hp; exact absurd hp (by simp)
    | some pr =>
      obtain ⟨ks, vs, rr⟩ := pr
      rw [hr] at hp
      simp only [Option.some.injEq] at hp
      subst hp
      have hlens := parseIndexRecords_lengths keySize _ _ _ _ _ hr
      refine ⟨by simp [hlens.1, hlens.2], by simp [hlens.1], ?_⟩
      intro key
      have hb := bisectRight_le_length (α := List Nat) ks key
      constructor
      · exact hb
      · have hlt : bisectRight ks key < (beI32 (hdr.drop 5) :: vs).length := by
          simp only [List.length_cons]
          omega
        unfold blockForKey
        simp only
        rw [List.get?_eq_get hlt]
        simp

/-- C10 witness: key size 1, one record (key 9, child 7) below a left child
5; the parsed block has two children and one key, and every lookup stays in
range. -/
theorem C10_parsed_index_child_in_range_witness :
    parseIndex 1 [2, 0, 0, 0, 1, 0, 0, 0, 5, 9, 0, 0, 0, 7] =
        some (IndexBlock.mk 2 1 [[9]] [5, 7]) ∧
      ((IndexBlock.mk 2 1 [[9]] [5, 7]).values.length =
          (IndexBlock.mk 2 1 [[9]] [5, 7]).keys.length + 1 ∧
        (IndexBlock.mk 2 1 [[9]] [5, 7]).keys.length =
          (IndexBlock.mk 2 1 [[9]] [5, 7]).numKeys.toNat ∧
        ∀ key,
          bisectRight (IndexBlock.mk 2 1 [[9]] [5, 7]).keys key ≤
              (IndexBlock.mk 2 1 [[9]] [5, 7]).keys.length ∧
            (blockForKey (IndexBlock.mk 2 1 [[9]] [5, 7]) key).isSome) := by
  refine ⟨by decide, ?_⟩
  exact C10_parsed_index_child_in_range 1
    [2, 0, 0, 0, 1, 0, 0, 0, 5, 9, 0, 0, 0, 7]
    (IndexBlock.mk 2 1 [[9]] [5, 7]) (by decide)

/-- C10 counterexample: a header encoding `num_keys = -1` parses without
reading any record, producing one child and no keys; the child list then
has 1 entry, not `num_keys + 1 = 0` as the claim literally requires. -/
theorem C10_negative_numKeys_parses :
    parseIndex 1 [0, 255, 255, 255, 255, 0, 0, 0, 0] =
        some (IndexBlock.mk 0 (-1) [] [0]) ∧
      ¬ (((IndexBlock.mk 0 (-1) [] [0]).values.length : Int) =
          (IndexBlock.mk 0 (-1) [] [0]).numKeys + 1) := by
  exact ⟨by decide, by decide⟩

/-- A successful block-table lookup returns the payload of a table entry. -/
theorem lookupBlock_mem :
    ∀ (store : List (Int × PBlock)) (i : Int) (b : PBlock),
      lookupBlock store i = some b → ∃ p ∈ store, p.2 = b := by
  intro store
  induction store with
  | nil => intro i b h; exact absurd h (by simp [lookupBlock])
  | cons e rest ih =>
    intro i b h
    obtain ⟨j, eb⟩ := e
    unfold lookupBlock at h
    by_cases hji : j = i
    · rw [if_pos hji] at h
      injection h with h
      exact ⟨(j, eb), by simp, h⟩
    · rw [if_neg hji] at h
      obtain ⟨p, hp, hpb⟩ := ih i b h
      exact ⟨p, by simp [hp], hpb⟩

/-- In a well-formed table every block reachable by lookup is itself
well-formed. -/
theorem wfStore_lookup (store : List (Int × PBlock))
    (hwf : wfStore store = true) (i : Int) (b : PBlock)
    (h : lookupBlock store i = some b) : wfBlock store b = true := by
  obtain ⟨p, hp, hpb⟩ := lookupBlock_mem store i b h
  have := List.all_eq_true.mp hwf p hp
  rw [hpb] at this
  exact this

/-- A well-formed index block always yields a child for every key, and that
child is one of its children. -/
theorem blockForKey_mem (ib : IndexBlock)
    (hlen : ib.values.length = ib.keys.length + 1) (key : List Nat) :
    ∃ c, blockForKey ib key = some c ∧ c ∈ ib.values := by
  have hb := bisectRight_le_length ib.keys key
  have hlt : bisectRight ib.keys key < ib.values.length := by omega
  unfold blockForKey
  rw [List.get?_eq_get hlt]
  exact ⟨_, rfl, List.get_mem _ _ _⟩

/-- Fuelled descent from a well-formed index block reaches a leaf, touching
at most `level + 1` index blocks, never the same one twice, and every index
block it touches has level at most the starting level. -/
theorem descend_wf (store : List (Int × PBlock)) (key : List Nat)
    (hwf : wfStore store = true) :
    ∀ lev (r : Int) (ib : IndexBlock) (fuel : Nat),
      lookupBlock store r = some (.index ib) → ib.level ≤ lev →
      lev + 2 ≤ fuel →
      ∃ tr, descendTrace store key fuel r = some (tr, .leaf) ∧
        tr.length ≤ ib.level + 1 ∧ tr.Nodup ∧
        ∀ j ∈ tr, ∃ jb, lookupBlock store j = some (.index jb) ∧
          jb.level ≤ ib.level := by
  intro lev
  induction lev with
  | zero =>
    intro r ib fuel hr hlev hfuel
    obtain ⟨f, rfl⟩ : ∃ f, fuel = f + 1 := ⟨fuel - 1, by omega⟩
    have hwfb := wfStore_lookup store hwf r _ hr
    unfold wfBlock at hwfb
    rw [Bool.and_eq_true] at hwfb
    have hlen : ib.values.length = ib.keys.length + 1 := by
      have := hwfb.1
      exact of_decide_eq_true this
    obtain ⟨c, hc, hcmem⟩ := blockForKey_mem ib hlen key
    have hcwf := List.all_eq_true.mp hwfb.2 c hcmem
    unfold descendTrace
    rw [hr]
    dsimp only
    rw [hc]
    dsimp only
    cases hlook : lookupBlock store c with
    | none => rw [hlook] at hcwf; exact absurd hcwf (by simp)
    | some cb =>
      rw [hlook] at hcwf
      cases cb with
      | free => exact absurd hcwf (by simp)
      | index cib =>
        have : cib.level < ib.level := by
          simpa using hcwf
        omega
      | leaf =>
        obtain ⟨f2, rfl⟩ : ∃ f2, f = f2 + 1 := ⟨f - 1, by omega⟩
        unfold descendTrace
        rw [hlook]
        refine ⟨[r], rfl, by simp, by simp, ?_⟩
        intro j hj
        simp only [List.mem_singleton] at hj
        subst hj
        exact ⟨ib, hr, Nat.le_refl _⟩
  | succ lm ih =>
    intro r ib fuel hr hlev hfuel
    obtain ⟨f, rfl⟩ : ∃ f, fuel = f + 1 := ⟨fuel - 1, by omega⟩
    have hwfb := wfStore_lookup store hwf r _ hr
    unfold wfBlock at hwfb
    rw [Bool.and_eq_true] at hwfb
    have hlen : ib.values.length = ib.keys.length + 1 := by
      have := hwfb.1
      exact of_decide_eq_true this
    obtain ⟨c, hc, hcmem⟩ := blockForKey_mem ib hlen key
    have hcwf := List.all_eq_true.mp hwfb.2 c hcmem
    unfold descendTrace
    rw [hr]
    dsimp only
    rw [hc]
    dsimp only
    cases hlook : lookupBlock store c with
    | none => rw [hlook] at hcwf; exact absurd hcwf (by simp)
    | some cb =>
      rw [hlook] at hcwf
      cases cb with
      | free => exact absurd hcwf (by simp)
      | leaf =>
        obtain ⟨f2, rfl⟩ : ∃ f2, f = f2 + 1 := ⟨f - 1, by omega⟩
        unfold descendTrace
        rw [hlook]
        refine ⟨[r], rfl, by simp, by simp, ?_⟩
        intro j hj
        simp only [List.mem_singleton] at hj
        subst hj
        exact ⟨ib, hr, Nat.le_refl _⟩
      | index cib =>
        have hciblev : cib.level < ib.level := by
          simpa using hcwf
        obtain ⟨tr2, htr2, hlen2, hnd2, hall2⟩ :=
          ih c cib f hlook (by omega) (by omega)
        rw [htr2]
        refine ⟨r :: tr2, rfl, ?_, ?_, ?_⟩
        · simp only [List.length_cons]
          omega
        · rw [List.nodup_cons]
          refine ⟨?_, hnd2⟩
          intro hmem
          obtain ⟨jb, hjb, hjlev⟩ := hall2 r hmem
          rw [hr] at hjb
          injection hjb with hjb
          injection hjb with hjb
          subst hjb
          omega
        · intro j hj
          rcases List.mem_cons.mp hj with rfl | hjtr
          · exact ⟨ib, hr, Nat.le_refl _⟩
          · obtain ⟨jb, hjb, hjlev⟩ := hall2 j hjtr
            exact ⟨jb, hjb, by omega⟩

/-- C8: from any index block of a well-formed block table, the descent loop
reaches a leaf within `level + 1` block replacements and never visits the
same index block twice. -/
theorem C8_descent_reaches_leaf (store : List (Int × PBlock))
    (key : List Nat) (r : Int) (ib : IndexBlock)
    (hwf : wfStore store = true)
    (hr : lookupBlock store r = some (.index ib)) :
    ∃ tr fin, descendTrace store key (ib.level + 2) r = some (tr, fin) ∧
      fin = .leaf ∧ tr.length ≤ ib.level + 1 ∧ tr.Nodup := by
  obtain ⟨tr, h1, h2, h3, _⟩ :=
    descend_wf store key hwf ib.level r ib (ib.level + 2) hr
      (Nat.le_refl _) (Nat.le_refl _)
  exact ⟨tr, .leaf, h1, rfl, h2, h3⟩

/-- C8 witness: a two-level tree — root index 0 at level 1 over an index
block 1 at level 0 over leaves — is well formed, and the descent for a
concrete key reaches a leaf. -/
theorem C8_descent_reaches_leaf_witness :
    wfStore [(0, .index (IndexBlock.mk 1 1 [[5]] [1, 2])),
        (1, .index (IndexBlock.mk 0 1 [[7]] [3, 3])),
        (2, .leaf), (3, .leaf)] = true ∧
      lookupBlock [(0, .index (IndexBlock.mk 1 1 [[5]] [1, 2])),
          (1, .index (IndexBlock.mk 0 1 [[7]] [3, 3])),
          (2, .leaf), (3, .leaf)] 0 =
        some (.index (IndexBlock.mk 1 1 [[5]] [1, 2])) ∧
      ∃ tr fin,
        descendTrace [(0, .index (IndexBlock.mk 1 1 [[5]] [1, 2])),
            (1, .index (IndexBlock.mk 0 1 [[7]] [3, 3])),
            (2, .leaf), (3, .leaf)] [4]
            ((IndexBlock.mk 1 1 [[5]] [1, 2]).level + 2) 0 =
          some (tr, fin) ∧
        fin = .leaf ∧
        tr.length ≤ (IndexBlock.mk 1 1 [[5]] [1, 2]).level + 1 ∧ tr.Nodup := by
  refine ⟨by decide, by decide, ?_⟩
  exact C8_descent_reaches_leaf
    [(0, .index (IndexBlock.mk 1 1 [[5]] [1, 2])),
      (1, .index (IndexBlock.mk 0 1 [[7]] [3, 3])),
      (2, .leaf), (3, .leaf)] [4] 0 (IndexBlock.mk 1 1 [[5]] [1, 2])
    (by decide) (by decide)

/-- C9: the mapping is always flagged read-only and a root-level write fails
with the read-only error; but a write through a derived region fails with an
`AttributeError` (the body names the non-existent `_sanitaize_segment`)
before the read-only check can run, so not every write surfaces the
read-only error as the claim states. -/
theorem C9_write_paths :
    mappedFileReadOnlyFlag false = true ∧
      mappedFileReadOnlyFlag true = true ∧
      mfWrite (mappedFileReadOnlyFlag false) = .error .readOnlyError ∧
      regionWrite [120] (-1) 0 = .error .attrError ∧
      WErr.attrError ≠ WErr.readOnlyError := by
  exact ⟨rfl, rfl, rfl, rfl, by decide⟩
